import Mathlib

/-!
Verification of the AI GitLab reviewer core (reviewer.py, gitlab_client.py).

The development shallowly embeds the program's data model and operations:

* `parse_diff_for_new_lines` — the unified-diff parser (reviewer.py lines 29-107);
* `validate_finding_line` — the finding-line validator (reviewer.py lines 110-133);
* `parse_llm_output` — the model-output extractor (reviewer.py lines 136-147),
  together with a model of the JSON decoder it delegates to;
* `runFrom` / `review_merge_request_stream` — the streaming review orchestrator
  (reviewer.py lines 198-362) and the posting collaborator
  (gitlab_client.post_inline_comment, lines 72-116).

Lines of text are embedded as `List Char`; Python `int` is `Int`; Python sets and
dicts that the program only ever extends are embedded as lists (membership and
first-match lookup give the same observable behaviour, since inserted keys are
distinct); fallible calls return `Except`.  A Python generator that may raise is
embedded as the pair of the list of values it yielded and the optional exception
that terminated it.
-/

namespace GitlabReviewer

/-- One line of diff text, as a list of characters. -/
abbrev Line := List Char

/-- Python `str.split('\n')`: always returns at least one (possibly empty) piece. -/
def splitLines : List Char → List Line
  | [] => [[]]
  | '\n' :: rest => [] :: splitLines rest
  | c :: rest =>
    match splitLines rest with
    | l :: ls => (c :: l) :: ls
    | [] => [[c]]

/-- ASCII whitespace accepted by the hunk-header regular expression class `\s`
(reviewer.py line 50).  Non-ASCII whitespace is not modelled. -/
def isSpaceRe (c : Char) : Bool :=
  c = ' ' || c = '\t' || c = '\n' || c = '\r' || c = '\x0b' || c = '\x0c'

/-- Numeric value of a list of ASCII digits. -/
def digitsVal (ds : List Char) : Nat :=
  ds.foldl (fun a c => a * 10 + (c.toNat - 48)) 0

/-- Maximal-munch `\d+` (at least one ASCII digit); returns the value and the rest. -/
def takeDigits (cs : List Char) : Option (Nat × List Char) :=
  match cs.takeWhile Char.isDigit with
  | [] => none
  | ds => some (digitsVal ds, cs.dropWhile Char.isDigit)

/-- Mandatory whitespace `\s+`: at least one space-class character, maximal munch. -/
def skipSpaces1 (cs : List Char) : Option (List Char) :=
  match cs with
  | c :: rest => if isSpaceRe c then some (rest.dropWhile isSpaceRe) else none
  | [] => none

/-- The optional count group `(?:,(\d+))?` of the hunk-header pattern; a missing
count defaults to 1 (reviewer.py lines 53, 55).  When a comma is present but not
followed by digits the group matches empty without consuming the comma, and the
subsequent mandatory-whitespace check fails on the comma, exactly as in the
regular-expression engine. -/
def optCount (cs : List Char) : Nat × List Char :=
  match cs with
  | ',' :: rest =>
    match takeDigits rest with
    | some (n, r) => (n, r)
    | none => (1, cs)
  | _ => (1, cs)

/-- `re.match(r'^@@\s+-(\d+)(?:,(\d+))?\s+\+(\d+)(?:,(\d+))?\s+@@', line)`
(reviewer.py line 50): returns `(old_start, old_count, new_start, new_count)`
when the line is a hunk header.  Trailing text after the closing `@@` is
allowed, as with `re.match`.  Only ASCII digits are modelled (the engine's `\d`
also admits other Unicode decimal digits). -/
def hunkHeader? (l : Line) : Option (Int × Int × Int × Int) :=
  match l with
  | '@' :: '@' :: rest =>
    match skipSpaces1 rest with
    | none => none
    | some r1 =>
      match r1 with
      | '-' :: r2 =>
        match takeDigits r2 with
        | none => none
        | some (os, r3) =>
          let (oc, r4) := optCount r3
          match skipSpaces1 r4 with
          | none => none
          | some r5 =>
            match r5 with
            | '+' :: r6 =>
              match takeDigits r6 with
              | none => none
              | some (ns, r7) =>
                let (nc, r8) := optCount r7
                match skipSpaces1 r8 with
                | none => none
                | some r9 =>
                  match r9 with
                  | '@' :: '@' :: _ => some ((os : Int), (oc : Int), (ns : Int), (nc : Int))
                  | _ => none
            | _ => none
      | _ => none
  | _ => none

/-- `line.startswith(p)` on embedded lines. -/
def startsWith (p l : Line) : Bool := p.isPrefixOf l

/-- Decimal digits of a natural number, via explicit fuel so that the kernel can
evaluate it. -/
def natToCharsAux : Nat → Nat → List Char → List Char
  | 0, _, acc => acc
  | fuel + 1, n, acc =>
    if n < 10 then Char.ofNat (n + 48) :: acc
    else natToCharsAux fuel (n / 10) (Char.ofNat (n % 10 + 48) :: acc)

def natToChars (n : Nat) : List Char := natToCharsAux (n + 1) n []

/-- Decimal rendering of an integer, as produced by the f-string `{new_line}`. -/
def intToChars (i : Int) : List Char :=
  if i < 0 then '-' :: natToChars i.natAbs else natToChars i.natAbs

/-- The annotated added line `f"  [{new_line}] {code_content}"` (reviewer.py line 77). -/
def annotate (newLine : Int) (content : Line) : Line :=
  ' ' :: ' ' :: '[' :: (intToChars newLine ++ (']' :: ' ' :: content))

/-- Parser state: the accumulated output lines, the line-number mapping, the set of
valid new line numbers (as the list of inserted elements, in insertion order), and
the running `formatted_line_num` counter (reviewer.py lines 40-43). -/
structure PState where
  formatted : List Line
  mapping : List (Int × Int)
  valid : List Int
  fnum : Int
deriving Repr

/-- Append a pass-through line to the formatted output (`formatted_lines.append(line)`
followed by `formatted_line_num += 1`). -/
def emitLine (st : PState) (l : Line) : PState :=
  { st with formatted := st.formatted ++ [l], fnum := st.fnum + 1 }

/-- Record an added line (reviewer.py lines 74-81): emit the annotated line, extend
`line_mapping` and `valid_new_lines`, and advance the counter. -/
def emitAdded (st : PState) (newLine : Int) (content : Line) : PState :=
  { formatted := st.formatted ++ [annotate newLine content],
    mapping := st.mapping ++ [(st.fnum, newLine)],
    valid := st.valid ++ [newLine],
    fnum := st.fnum + 1 }

/-- Control position of the scanning loop: either outside any hunk (the outer
`while`, reviewer.py lines 46-104) or inside a hunk with the running `old_line`
and `new_line` counters (the inner `while`, lines 67-99). -/
inductive PMode where
  | outside
  | inHunk (old_line new_line : Int)

/-- An added line: marker `+` but not `+++` (reviewer.py line 74). -/
def isAdded (l : Line) : Bool :=
  startsWith ['+'] l && !startsWith ['+', '+', '+'] l

/-- A removed line: marker `-` but not `---` (reviewer.py line 82). -/
def isRemoved (l : Line) : Bool :=
  startsWith ['-'] l && !startsWith ['-', '-', '-'] l

/-- A context line: marker `' '` (reviewer.py line 85). -/
def isContext (l : Line) : Bool := startsWith [' '] l

/-- The scanning loop of `parse_diff_for_new_lines`.  The Python inner loop exits
back to the outer loop without advancing the index on a line starting with `@@`
or `\`; the outer loop then reprocesses that same line, which is folded into the
`inHunk` branches here. -/
def parseLoop : List Line → PMode → PState → PState
  | [], _, st => st
  | l :: ls, .outside, st =>
    match hunkHeader? l with
    | some (os, _, ns, _) => parseLoop ls (.inHunk os ns) (emitLine st l)
    | none => parseLoop ls .outside (emitLine st l)
  | l :: ls, .inHunk o n, st =>
    if startsWith ['@', '@'] l then
      match hunkHeader? l with
      | some (os, _, ns, _) => parseLoop ls (.inHunk os ns) (emitLine st l)
      | none => parseLoop ls .outside (emitLine st l)
    else if isAdded l then
      parseLoop ls (.inHunk o (n + 1)) (emitAdded st n (l.drop 1))
    else if isRemoved l then
      parseLoop ls (.inHunk (o + 1) n) st
    else if isContext l then
      parseLoop ls (.inHunk (o + 1) (n + 1)) (emitLine st l)
    else if startsWith ['\\'] l then
      parseLoop ls .outside (emitLine st l)
    else
      parseLoop ls (.inHunk o n) (emitLine st l)

/-- Result of the diff parser: `(formatted_diff, line_mapping, valid_new_lines)`
(reviewer.py line 107).  `valid_new_lines` is a Python set; it is embedded as the
list of inserted elements, to be read up to membership. -/
structure ParsedDiff where
  formatted_diff : List Line
  line_mapping : List (Int × Int)
  valid_new_lines : List Int

/-- `parse_diff_for_new_lines(diff_text)` (reviewer.py lines 29-107). -/
def parse_diff_for_new_lines (diff_text : String) : ParsedDiff :=
  let st := parseLoop (splitLines diff_text.data) .outside ⟨[], [], [], 0⟩
  ⟨st.formatted, st.mapping, st.valid⟩

/-- The spec's recipe for the set of new-file line numbers of added lines, read
with the spec's own classification of lines inside a hunk (spec section 4.1):
`new_line` initialises to each hunk header's `new_start` and increments on every
added and context line; a `\` marker terminates the current hunk's line stream;
and any other line inside a hunk — including stray header-like text — is treated
as pass-through that does not affect the counters and does not end the hunk.
The state is the running `new_line` counter of the current hunk, if any. -/
def specNewLinesClaimed : List Line → Option Int → List Int
  | [], _ => []
  | l :: ls, cur =>
    match hunkHeader? l with
    | some (_, _, ns, _) => specNewLinesClaimed ls (some ns)
    | none =>
      match cur with
      | none => specNewLinesClaimed ls none
      | some n =>
        if isAdded l then n :: specNewLinesClaimed ls (some (n + 1))
        else if isRemoved l then specNewLinesClaimed ls (some n)
        else if isContext l then specNewLinesClaimed ls (some (n + 1))
        else if startsWith ['\\'] l then specNewLinesClaimed ls none
        else specNewLinesClaimed ls (some n)

/-- The amended recipe, differing from `specNewLinesClaimed` in one point: a line
starting with `@@` always ends the current hunk — it starts a new hunk when it
parses as a header and otherwise returns the scan to pass-through mode, so lines
between it and the next valid header are not counted.  This matches the code's
behaviour, where the inner loop breaks on any `@@` line. -/
def specNewLines : List Line → Option Int → List Int
  | [], _ => []
  | l :: ls, none =>
    match hunkHeader? l with
    | some (_, _, ns, _) => specNewLines ls (some ns)
    | none => specNewLines ls none
  | l :: ls, some n =>
    if startsWith ['@', '@'] l then
      match hunkHeader? l with
      | some (_, _, ns, _) => specNewLines ls (some ns)
      | none => specNewLines ls none
    else if isAdded l then n :: specNewLines ls (some (n + 1))
    else if isRemoved l then specNewLines ls (some n)
    else if isContext l then specNewLines ls (some (n + 1))
    else if startsWith ['\\'] l then specNewLines ls none
    else specNewLines ls (some n)

/-- The `new_line` component of a loop mode, for relating the parser to the spec
recipe. -/
def PMode.newLine? : PMode → Option Int
  | .outside => none
  | .inHunk _ n => some n

/-- First-match lookup in the embedded `line_mapping` dict; keys inserted by the
parser are pairwise distinct, so this agrees with Python dict lookup. -/
def lookupKey : List (Int × Int) → Int → Option Int
  | [], _ => none
  | (k, v) :: rest, x => if k = x then some v else lookupKey rest x

/-- `validate_finding_line(finding_line, line_mapping, valid_new_lines)`
(reviewer.py lines 110-133). -/
def validate_finding_line (finding_line : Int) (line_mapping : List (Int × Int))
    (valid_new_lines : List Int) : Option Int :=
  if finding_line ∈ valid_new_lines then some finding_line
  else
    match lookupKey line_mapping finding_line with
    | some mapped => if mapped ∈ valid_new_lines then some mapped else none
    | none => none

/-! ### Model output extraction (reviewer.py lines 136-147)

`parse_llm_output` delegates to `re.search(r"\[.*\]", text, re.DOTALL)` and
`json.loads`.  The decoder below is a model of the external `json` module
(Python standard library, not part of this repository), restricted to integer
numerals (no fractions or exponents) and to string escapes without `\uXXXX`;
the claims only depend on its behaviour on such inputs. -/

/-- Embedded JSON values as returned by `json.loads`: object keys are strings,
Python `None`/`True`/`False` are `null`/`bool`. -/
inductive Json where
  | str (chars : List Char)
  | num (value : Int)
  | obj (fields : List (List Char × Json))
  | arr (items : List Json)
  | bool (flag : Bool)
  | null

/-- `dict.get(key)` on a decoded JSON object, `none` when the key is absent.
Lookup is first-match; `json.loads` keeps the last duplicate key, but the
orchestrator claims never involve duplicate keys. -/
def objGet : List (List Char × Json) → List Char → Option Json
  | [], _ => none
  | (k, v) :: rest, key => if k = key then some v else objGet rest key

/-- Whether a decoded element supplies a field (is an object with that key). -/
def hasField (j : Json) (key : List Char) : Bool :=
  match j with
  | .obj ms => (objGet ms key).isSome
  | _ => false

/-- Index of the first occurrence of a character, scanning left to right. -/
def firstIdxOf (c : Char) : List Char → Option Nat
  | [] => none
  | x :: xs => if x = c then some 0 else (firstIdxOf c xs).map (· + 1)

/-- Index of the last occurrence of a character. -/
def lastIdxOf (c : Char) : List Char → Option Nat
  | [] => none
  | x :: xs =>
    match lastIdxOf c xs with
    | some i => some (i + 1)
    | none => if x = c then some 0 else none

/-- The span matched by `re.search(r"\[.*\]", text, re.DOTALL)`: from the first
`[` to the last `]`, when the latter comes after the former; `.` matches
newlines under DOTALL, so the span is purely positional. -/
def extractSpan (s : List Char) : Option (List Char) :=
  match firstIdxOf '[' s, lastIdxOf ']' s with
  | some i, some j => if i < j then some ((s.drop i).take (j - i + 1)) else none
  | _, _ => none

/-- JSON whitespace. -/
def jsonWs (c : Char) : Bool := c = ' ' || c = '\t' || c = '\n' || c = '\r'

def skipWs (cs : List Char) : List Char := cs.dropWhile jsonWs

/-- JSON string escape characters (`\uXXXX` is not modelled). -/
def escChar (e : Char) : Option Char :=
  if e = 'n' then some '\n'
  else if e = 't' then some '\t'
  else if e = 'r' then some '\r'
  else if e = 'b' then some '\x08'
  else if e = 'f' then some '\x0c'
  else if e = '"' || e = '\\' || e = '/' then some e
  else none

/-- Body of a JSON string after the opening quote: content and remainder after
the closing quote. -/
def parseStringBody : List Char → Option (List Char × List Char)
  | [] => none
  | '"' :: rest => some ([], rest)
  | '\\' :: rest =>
    match rest with
    | [] => none
    | e :: rest' =>
      match escChar e with
      | none => none
      | some c =>
        match parseStringBody rest' with
        | some (s, r) => some (c :: s, r)
        | none => none
  | c :: rest =>
    match parseStringBody rest with
    | some (s, r) => some (c :: s, r)
    | none => none

/-- Consume the tail of a keyword literal (`true`, `false`, `null`). -/
def litRest (pat cs : List Char) : Option (List Char) :=
  if pat.isPrefixOf cs then some (cs.drop pat.length) else none

/-- JSON natural-number numeral: either a bare `0` or a nonzero leading digit
with maximal munch. -/
def parseJsonNat (cs : List Char) : Option (Nat × List Char) :=
  match cs with
  | '0' :: rest =>
    match rest with
    | d :: _ => if d.isDigit then none else some (0, rest)
    | [] => some (0, [])
  | c :: _ => if c.isDigit then takeDigits cs else none
  | [] => none

/-- JSON integer numeral; a following `.`, `e` or `E` (a float) is outside the
modelled fragment and fails. -/
def parseJsonInt (cs : List Char) : Option (Int × List Char) :=
  let core : List Char → Option (Nat × List Char) := parseJsonNat
  match cs with
  | '-' :: rest =>
    match core rest with
    | some (n, r) =>
      match r with
      | c :: _ => if c = '.' || c = 'e' || c = 'E' then none else some (-(n : Int), r)
      | [] => some (-(n : Int), [])
    | none => none
  | _ =>
    match core cs with
    | some (n, r) =>
      match r with
      | c :: _ => if c = '.' || c = 'e' || c = 'E' then none else some ((n : Int), r)
      | [] => some ((n : Int), [])
    | none => none

mutual

/-- One JSON value, with explicit fuel; returns the value and the unconsumed
remainder. -/
def parseJsonValue : Nat → List Char → Option (Json × List Char)
  | 0, _ => none
  | fuel + 1, cs =>
    match skipWs cs with
    | '[' :: rest =>
      (match skipWs rest with
        | ']' :: r => some (.arr [], r)
        | _ =>
          match parseArrayItems fuel rest with
          | some (xs, r) => some (.arr xs, r)
          | none => none)
    | '{' :: rest =>
      (match skipWs rest with
        | '}' :: r => some (.obj [], r)
        | _ =>
          match parseObjItems fuel rest with
          | some (ms, r) => some (.obj ms, r)
          | none => none)
    | '"' :: rest =>
      (match parseStringBody rest with
        | some (s, r) => some (.str s, r)
        | none => none)
    | 't' :: rest => (litRest "rue".data rest).map (fun r => (.bool true, r))
    | 'f' :: rest => (litRest "alse".data rest).map (fun r => (.bool false, r))
    | 'n' :: rest => (litRest "ull".data rest).map (fun r => (.null, r))
    | rest =>
      match parseJsonInt rest with
      | some (n, r) => some (.num n, r)
      | none => none

/-- Comma-separated array elements up to the closing `]`. -/
def parseArrayItems : Nat → List Char → Option (List Json × List Char)
  | 0, _ => none
  | fuel + 1, cs =>
    match parseJsonValue fuel cs with
    | none => none
    | some (v, r) =>
      match skipWs r with
      | ',' :: r2 =>
        (match parseArrayItems fuel r2 with
          | some (vs, r3) => some (v :: vs, r3)
          | none => none)
      | ']' :: r2 => some ([v], r2)
      | _ => none

/-- Comma-separated object members up to the closing `}`. -/
def parseObjItems : Nat → List Char → Option (List (List Char × Json) × List Char)
  | 0, _ => none
  | fuel + 1, cs =>
    match skipWs cs with
    | '"' :: rest =>
      (match parseStringBody rest with
        | none => none
        | some (k, r) =>
          match skipWs r with
          | ':' :: r2 =>
            (match parseJsonValue fuel r2 with
              | none => none
              | some (v, r3) =>
                match skipWs r3 with
                | ',' :: r4 =>
                  (match parseObjItems fuel r4 with
                    | some (ms, r5) => some ((k, v) :: ms, r5)
                    | none => none)
                | '}' :: r4 => some ([(k, v)], r4)
                | _ => none)
          | _ => none)
    | _ => none

end

/-- `json.loads` on the modelled fragment: one value consuming the whole input
up to trailing whitespace.  The fuel bound suffices because every two recursive
steps consume at least one character. -/
def jsonLoads (cs : List Char) : Option Json :=
  match parseJsonValue (2 * cs.length + 2) cs with
  | some (v, rest) => if skipWs rest = [] then some v else none
  | none => none

/-- `parse_llm_output(text)` (reviewer.py lines 136-147): take the greedy span
from the first `[` to the last `]` and decode it; on a missing span or a decode
failure return the empty list.  A successful decode of a span that starts with
`[` is necessarily an array, and the function is total — the embedding of
"never raises". -/
def parse_llm_output (text : String) : List Json :=
  match extractSpan text.data with
  | none => []
  | some sub =>
    match jsonLoads sub with
    | some (.arr xs) => xs
    | _ => []

/-! ### Streaming review orchestrator (reviewer.py lines 198-362)

The generator is embedded as a function returning the list of yielded snapshots
together with the exception, if any, that terminated the run; a streaming
consumer observes exactly the yielded prefix before the exception surfaces.
The external model client is a function returning `Except` (its call at
reviewer.py line 289 is not guarded); the prompt construction (PromptTemplate
and the optional RAG augmentation, lines 276-286) is abstracted as a function
of the formatted diff, since no claim depends on the prompt text. -/

/-- Python exceptions that can terminate a run in the modelled fragment. -/
inductive RunErr where
  | keyError
  | attrError
  | typeError
  | modelFailure
deriving DecidableEq, Repr

/-- One element of `mr.changes()["changes"]` as consumed by the orchestrator and
by the posting collaborator. -/
structure Change where
  old_path : String
  new_path : String
  diff : String

/-- A validated finding as accumulated by the orchestrator (reviewer.py
lines 312-318).  `comment`, `severity` and `line_code` hold the decoded JSON
values exactly as the Python dict does. -/
structure Finding where
  file : String
  line : Int
  comment : Json
  severity : Json
  line_code : Json

/-- One entry of the textual summary (reviewer.py line 333), kept structurally:
the f-string rendering is presentation only. -/
structure SummaryEntry where
  file : String
  line : Int
  comment : Json
  line_code : Json

/-- One yielded result dict (reviewer.py lines 253-260, 336-343, 355-362). -/
structure Snapshot where
  findings : List Finding
  summary : List SummaryEntry
  total_findings : Nat
  files_reviewed : Nat
  cancelled : Bool
  done : Bool

/-- Resolution of the reported `line` value against the validator, with Python
semantics for the membership tests on a set of `int`s: numbers match
numerically, `True`/`False` equal `1`/`0`, strings and `None` are hashable but
never equal an `int`, and unhashable values (lists, dicts) raise `TypeError`. -/
def lineResolution (lv : Json) (lm : List (Int × Int)) (valid : List Int) :
    Except RunErr (Option Int) :=
  match lv with
  | .num n => .ok (validate_finding_line n lm valid)
  | .bool b => .ok (validate_finding_line (if b then 1 else 0) lm valid)
  | .str _ => .ok none
  | .null => .ok none
  | .arr _ => .error .typeError
  | .obj _ => .error .typeError

/-- The target-change scan of `post_inline_comment` (gitlab_client.py
lines 87-92): the first change whose `new_path` or `old_path` equals the file. -/
def findTargetChange (changes : List Change) (file_path : String) : Option Change :=
  match changes with
  | [] => none
  | c :: rest =>
    if c.new_path = file_path || c.old_path = file_path then some c
    else findTargetChange rest file_path

/-- `post_inline_comment` (gitlab_client.py lines 72-116), viewed through the
abstract host-API contract of the spec: missing `diff_refs` and a missing
target change return early after logging, and an exception from
`mr.discussions.create` is caught and logged (lines 109-116) — so the call
never raises back into the orchestrator.  Transport faults of the host-API
collaborator itself are outside the modelled fragment. -/
def post_inline_comment (hasDiffRefs : Bool) (changes : List Change)
    (file_path : String) (createRaises : Bool) : Except RunErr Unit :=
  if !hasDiffRefs then .ok ()
  else
    match findTargetChange changes file_path with
    | none => .ok ()
    | some _ => if createRaises then .ok () else .ok ()

/-- String keys used by the record-processing loop. -/
def keyLine : List Char := "line".data

def keyComment : List Char := "comment".data

def keySeverity : List Char := "severity".data

def keyLineCode : List Char := "line_code".data

/-- The per-record loop of the orchestrator (reviewer.py lines 296-333).
`item.get('line')` on a non-dict raises `AttributeError`; a missing or `None`
line skips the record; a line that fails validation skips the record;
`item['comment']` and `item['severity']` raise `KeyError` when absent; the
finding is appended before the posting call; with posting enabled the comment
body evaluates `item['severity'].upper()`, raising `AttributeError` on a
non-string; the posting call's outcome does not influence the loop. -/
def processItems (pc : Bool) (post : Finding → Except RunErr Unit) (fp : String)
    (lm : List (Int × Int)) (valid : List Int) :
    List Json → List Finding → List SummaryEntry →
      Except RunErr (List Finding × List SummaryEntry)
  | [], acc, summ => .ok (acc, summ)
  | item :: rest, acc, summ =>
    match item with
    | .obj kvs =>
      (match objGet kvs keyLine with
        | none => processItems pc post fp lm valid rest acc summ
        | some .null => processItems pc post fp lm valid rest acc summ
        | some lv =>
          match lineResolution lv lm valid with
          | .error e => .error e
          | .ok none => processItems pc post fp lm valid rest acc summ
          | .ok (some actual) =>
            match objGet kvs keyComment with
            | none => .error .keyError
            | some cm =>
              match objGet kvs keySeverity with
              | none => .error .keyError
              | some sv =>
                let lc := (objGet kvs keyLineCode).getD (.str [])
                let f : Finding := ⟨fp, actual, cm, sv, lc⟩
                let acc' := acc ++ [f]
                let entry : SummaryEntry := ⟨fp, actual, cm, lc⟩
                if pc then
                  match sv with
                  | .str _ =>
                    match post f with
                    | .ok _ => processItems pc post fp lm valid rest acc' (summ ++ [entry])
                    | .error e => .error e
                  | _ => .error .attrError
                else
                  processItems pc post fp lm valid rest acc' (summ ++ [entry]))
    | _ => .error .attrError

/-- The file loop of `review_merge_request_stream` (reviewer.py lines 250-362):
at each file boundary the stop flag is consulted; a file with no new lines is
skipped without a snapshot; the model-client call is unguarded; record
processing may raise; a snapshot is yielded after each reviewed file and a
final `done` snapshot after the loop (the summary post is an external call
whose result the claims do not involve). -/
def runFrom (llm : String → Except RunErr String) (stopped : Nat → Bool) (pc : Bool)
    (post : Finding → Except RunErr Unit) (bp : String → String) :
    List Change → Nat → List Finding → List SummaryEntry →
      List Snapshot × Option RunErr
  | [], idx, acc, summ => ([⟨acc, summ, acc.length, idx, false, true⟩], none)
  | c :: rest, idx, acc, summ =>
    if stopped idx then ([⟨acc, summ, acc.length, idx, true, true⟩], none)
    else
      let pd := parse_diff_for_new_lines c.diff
      if pd.valid_new_lines = [] then runFrom llm stopped pc post bp rest (idx + 1) acc summ
      else
        match llm (bp (String.intercalate "\n" (pd.formatted_diff.map String.mk))) with
        | .error e => ([], some e)
        | .ok resp =>
          match processItems pc post c.new_path pd.line_mapping pd.valid_new_lines
              (parse_llm_output resp) acc summ with
          | .error e => ([], some e)
          | .ok (acc', summ') =>
            let r := runFrom llm stopped pc post bp rest (idx + 1) acc' summ'
            (⟨acc', summ', acc'.length, idx + 1, false, false⟩ :: r.1, r.2)

/-- The process-wide `threading.Event` observed at successive file boundaries:
its value at boundary `k` is its value after the run's initialisation, or-ed
with every `set_stop_flag` call made during the run up to that boundary
(`setDuring j` covers the interval ending at boundary `j`).  `resetAtStart`
records whether `reset_stop_flag()` ran at initialisation. -/
def flagSeq (startVal : Bool) (resetAtStart : Bool) (setDuring : Nat → Bool) :
    Nat → Bool
  | 0 => (if resetAtStart then false else startVal) || setDuring 0
  | k + 1 => flagSeq startVal resetAtStart setDuring k || setDuring (k + 1)

/-- The flag as `review_merge_request_stream` observes it: reviewer.py line 244
calls `reset_stop_flag()` before the first boundary check, so the start value
is cleared. -/
def observedFlag (startVal : Bool) (setDuring : Nat → Bool) : Nat → Bool :=
  flagSeq startVal true setDuring

/-- `review_merge_request_stream` (reviewer.py lines 198-362), from the state
after `get_mr_diffs`: the stop flag is reset, then the file loop runs from
index 0 with empty accumulators. -/
def review_merge_request_stream (flagAtStart : Bool) (setDuring : Nat → Bool)
    (llm : String → Except RunErr String) (pc : Bool)
    (post : Finding → Except RunErr Unit) (bp : String → String)
    (diffs : List Change) : List Snapshot × Option RunErr :=
  runFrom llm (observedFlag flagAtStart setDuring) pc post bp diffs 0 [] []

/-! ### Theorems -/

/-- A valid hunk header starts with `@@`. -/
theorem hunkHeader?_startsWith {l : Line} {h} (hh : hunkHeader? l = some h) :
    startsWith ['@', '@'] l = true := by
  match l with
  | '@' :: '@' :: _ => simp [startsWith, List.isPrefixOf]
  | [] => simp [hunkHeader?] at hh
  | [c] => simp [hunkHeader?] at hh
  | c :: d :: rest =>
    by_cases hc : c = '@' <;> by_cases hd : d = '@'
    · subst hc hd; simp [startsWith, List.isPrefixOf]
    all_goals (simp [hunkHeader?, hc, hd] at hh)

/-- The `valid_new_lines` accumulated by the scanning loop is the initial content
followed by exactly the numbers of the amended spec recipe. -/
theorem parseLoop_valid (ls : List Line) :
    ∀ (mode : PMode) (st : PState),
      (parseLoop ls mode st).valid = st.valid ++ specNewLines ls mode.newLine? := by
  induction ls with
  | nil => intro mode st; simp [parseLoop, specNewLines]
  | cons l ls ih =>
    intro mode st
    cases mode with
    | outside =>
      cases hh : hunkHeader? l with
      | some h =>
        obtain ⟨os, oc, ns, nc⟩ := h
        simp [parseLoop, specNewLines, hh, ih, emitLine, PMode.newLine?]
      | none =>
        simp [parseLoop, specNewLines, hh, ih, emitLine, PMode.newLine?]
    | inHunk o n =>
      by_cases hat : startsWith ['@', '@'] l
      · cases hh : hunkHeader? l with
        | some h =>
          obtain ⟨os, oc, ns, nc⟩ := h
          simp [parseLoop, specNewLines, hat, hh, ih, emitLine, PMode.newLine?]
        | none =>
          simp [parseLoop, specNewLines, hat, hh, ih, emitLine, PMode.newLine?]
      · have hh : hunkHeader? l = none := by
          cases hh' : hunkHeader? l with
          | some h => exact absurd (hunkHeader?_startsWith hh') (by simp [hat])
          | none => rfl
        cases hadd : isAdded l with
        | true =>
          simp [parseLoop, specNewLines, hat, hh, hadd, ih, emitAdded, PMode.newLine?]
        | false =>
          cases hrem : isRemoved l with
          | true =>
            simp [parseLoop, specNewLines, hat, hh, hadd, hrem, ih, PMode.newLine?]
          | false =>
            cases hctx : isContext l with
            | true =>
              simp [parseLoop, specNewLines, hat, hh, hadd, hrem, hctx, ih, emitLine,
                PMode.newLine?]
            | false =>
              cases hbs : startsWith ['\\'] l with
              | true =>
                simp [parseLoop, specNewLines, hat, hh, hadd, hrem, hctx, hbs, ih,
                  emitLine, PMode.newLine?]
              | false =>
                simp [parseLoop, specNewLines, hat, hh, hadd, hrem, hctx, hbs, ih,
                  emitLine, PMode.newLine?]

/-- The mapping invariant of the scanning loop: every value recorded in
`line_mapping` is a member of `valid_new_lines`, preserved from any state that
already satisfies it.  The proof also tracks that the valid list only grows. -/
theorem parseLoop_mapping_valid (ls : List Line) :
    ∀ (mode : PMode) (st : PState),
      (∀ p ∈ st.mapping, p.2 ∈ st.valid) →
      ∀ p ∈ (parseLoop ls mode st).mapping, p.2 ∈ (parseLoop ls mode st).valid := by
  have grow : ∀ (ls : List Line) (mode : PMode) (st : PState) (x : Int),
      x ∈ st.valid → x ∈ (parseLoop ls mode st).valid := by
    intro ls mode st x hx
    rw [parseLoop_valid]
    exact List.mem_append_left _ hx
  induction ls with
  | nil => intro mode st h; simpa [parseLoop] using h
  | cons l ls ih =>
    intro mode st h
    have hstep : ∀ (mode' : PMode) (st' : PState),
        (∀ p ∈ st'.mapping, p.2 ∈ st'.valid) →
        ∀ p ∈ (parseLoop (l :: ls) mode st).mapping,
          parseLoop (l :: ls) mode st = parseLoop ls mode' st' →
          p.2 ∈ (parseLoop (l :: ls) mode st).valid := by
      intro mode' st' h' p hp heq
      rw [heq] at hp ⊢
      exact ih mode' st' h' p hp
    have hEmit : ∀ (st : PState) (l : Line),
        (∀ p ∈ st.mapping, p.2 ∈ st.valid) →
        ∀ p ∈ (emitLine st l).mapping, p.2 ∈ (emitLine st l).valid := by
      intro st l h p hp
      exact h p hp
    have hAdded : ∀ (st : PState) (n : Int) (c : Line),
        (∀ p ∈ st.mapping, p.2 ∈ st.valid) →
        ∀ p ∈ (emitAdded st n c).mapping, p.2 ∈ (emitAdded st n c).valid := by
      intro st n c h p hp
      simp only [emitAdded, List.mem_append, List.mem_singleton] at hp ⊢
      rcases hp with hp | hp
      · exact Or.inl (h p hp)
      · subst hp; exact Or.inr rfl
    cases mode with
    | outside =>
      cases hh : hunkHeader? l with
      | some h4 =>
        obtain ⟨os, oc, ns, nc⟩ := h4
        intro p hp
        simp only [parseLoop, hh] at hp ⊢
        exact ih _ _ (hEmit st l h) p hp
      | none =>
        intro p hp
        simp only [parseLoop, hh] at hp ⊢
        exact ih _ _ (hEmit st l h) p hp
    | inHunk o n =>
      by_cases hat : startsWith ['@', '@'] l = true
      · cases hh : hunkHeader? l with
        | some h4 =>
          obtain ⟨os, oc, ns, nc⟩ := h4
          intro p hp
          simp only [parseLoop, hat, hh, if_pos] at hp ⊢
          exact ih _ _ (hEmit st l h) p hp
        | none =>
          intro p hp
          simp only [parseLoop, hat, hh, if_pos] at hp ⊢
          exact ih _ _ (hEmit st l h) p hp
      · have hh : hunkHeader? l = none := by
          cases hh' : hunkHeader? l with
          | some h4 => exact absurd (hunkHeader?_startsWith hh') hat
          | none => rfl
        intro p hp
        cases hadd : isAdded l with
        | true =>
          simp only [parseLoop, hat, hh, hadd, if_neg, if_pos, Bool.false_eq_true,
            not_false_iff] at hp ⊢
          exact ih _ _ (hAdded st n (l.drop 1) h) p hp
        | false =>
          cases hrem : isRemoved l with
          | true =>
            simp only [parseLoop, hat, hh, hadd, hrem, Bool.false_eq_true, if_neg,
              if_pos, not_false_iff] at hp ⊢
            exact ih _ _ h p hp
          | false =>
            cases hctx : isContext l with
            | true =>
              simp only [parseLoop, hat, hh, hadd, hrem, hctx, Bool.false_eq_true,
                if_neg, if_pos, not_false_iff] at hp ⊢
              exact ih _ _ (hEmit st l h) p hp
            | false =>
              cases hbs : startsWith ['\\'] l with
              | true =>
                simp only [parseLoop, hat, hh, hadd, hrem, hctx, hbs,
                  Bool.false_eq_true, if_neg, if_pos, not_false_iff] at hp ⊢
                exact ih _ _ (hEmit st l h) p hp
              | false =>
                simp only [parseLoop, hat, hh, hadd, hrem, hctx, hbs,
                  Bool.false_eq_true, if_neg, not_false_iff] at hp ⊢
                exact ih _ _ (hEmit st l h) p hp

/-- C1 (counterexample): the claim's recipe — `valid_new_lines` is the set of
new-file line numbers of added lines across all hunks, with `new_line`
initialised at each hunk header and incremented on added and context lines,
reading a hunk as the spec does (stray header-like text inside a hunk does not
end it) — fails on the diff `"@@ -1 +1,3 @@\n+a\n@@x\n+b"`: the recipe counts
line 2 for the final added line, but the code's `valid_new_lines` does not
contain 2, because the inner loop exits the hunk at the malformed `@@x` line. -/
theorem valid_new_lines_claimed_recipe_fails :
    (2 : Int) ∈ specNewLinesClaimed (splitLines ("@@ -1 +1,3 @@\n+a\n@@x\n+b").data) none
    ∧ (2 : Int) ∉ (parse_diff_for_new_lines "@@ -1 +1,3 @@\n+a\n@@x\n+b").valid_new_lines := by
  constructor
  · decide
  · decide

/-- C1 (amended): for every diff text, `valid_new_lines` equals exactly the set
of new-file line numbers of added lines (marker `+` but not `+++`) across all
hunks, computed by initialising `new_line` to each hunk header's `new_start`
and incrementing it on every added and context line — where a hunk's line
stream ends at the next line starting with `@@` (which opens a new hunk exactly
when it parses as a header) or at a line starting with `\`, lines outside any
hunk contributing nothing. -/
theorem valid_new_lines_eq_specNewLines (d : String) (n : Int) :
    n ∈ (parse_diff_for_new_lines d).valid_new_lines ↔
      n ∈ specNewLines (splitLines d.data) none := by
  show n ∈ (parseLoop (splitLines d.data) .outside ⟨[], [], [], 0⟩).valid ↔ _
  rw [parseLoop_valid]
  simp [PMode.newLine?]

/-- C9: for every diff text, every value stored in the `line_mapping` produced
by `parse_diff_for_new_lines` is a member of `valid_new_lines`. -/
theorem line_mapping_values_in_valid_new_lines (d : String) :
    ∀ p ∈ (parse_diff_for_new_lines d).line_mapping,
      p.2 ∈ (parse_diff_for_new_lines d).valid_new_lines := by
  intro p hp
  exact parseLoop_mapping_valid (splitLines d.data) .outside ⟨[], [], [], 0⟩
    (by intro q hq; exact absurd hq (List.not_mem_nil q)) p hp

/-- Witness for C9 at a concrete diff: the mapping of
`"@@ -1 +1 @@\n+x"` contains the pair `(1, 1)` and the theorem places its value
in `valid_new_lines`. -/
theorem line_mapping_values_in_valid_new_lines_witness :
    ((1 : Int), (1 : Int)) ∈ (parse_diff_for_new_lines "@@ -1 +1 @@\n+x").line_mapping
    ∧ (1 : Int) ∈ (parse_diff_for_new_lines "@@ -1 +1 @@\n+x").valid_new_lines :=
  ⟨by decide,
    line_mapping_values_in_valid_new_lines "@@ -1 +1 @@\n+x" ((1 : Int), (1 : Int))
      (by decide)⟩

/-- C2: `validate_finding_line` resolves with first match winning — a reported
line already in `valid_new_lines` is returned unchanged; otherwise a reported
line that is a key of `line_mapping` whose mapped value is in `valid_new_lines`
yields that mapped value; otherwise the result is `none`; and no other number is
ever returned. -/
theorem validate_finding_line_resolution (r : Int) (lm : List (Int × Int))
    (valid : List Int) :
    (r ∈ valid → validate_finding_line r lm valid = some r)
    ∧ (r ∉ valid → ∀ m, lookupKey lm r = some m → m ∈ valid →
        validate_finding_line r lm valid = some m)
    ∧ (r ∉ valid → ∀ m, lookupKey lm r = some m → m ∉ valid →
        validate_finding_line r lm valid = none)
    ∧ (r ∉ valid → lookupKey lm r = none → validate_finding_line r lm valid = none)
    ∧ (∀ x, validate_finding_line r lm valid = some x →
        (r ∈ valid ∧ x = r) ∨ (r ∉ valid ∧ lookupKey lm r = some x ∧ x ∈ valid)) := by
  unfold validate_finding_line
  by_cases h : r ∈ valid
  · refine ⟨fun _ => by simp [h], fun hc => absurd h hc, fun hc => absurd h hc,
      fun hc => absurd h hc, ?_⟩
    intro x hx
    simp [h] at hx
    exact Or.inl ⟨h, hx.symm⟩
  · refine ⟨fun hc => absurd hc h, ?_, ?_, ?_, ?_⟩
    · intro _ m hm hmv
      simp [h, hm, hmv]
    · intro _ m hm hmv
      simp [h, hm, hmv]
    · intro _ hm
      simp [h, hm]
    · intro x hx
      simp only [h, if_false] at hx
      cases hm : lookupKey lm r with
      | none => rw [hm] at hx; exact absurd hx (by simp)
      | some m =>
        rw [hm] at hx
        by_cases hmv : m ∈ valid
        · simp [hmv] at hx
          subst hx
          exact Or.inr ⟨h, rfl, hmv⟩
        · simp [hmv] at hx


/-- `firstIdxOf` finds an occurrence and nothing earlier is one. -/
theorem firstIdxOf_spec {c : Char} {s : List Char} {i : Nat}
    (h : firstIdxOf c s = some i) :
    s[i]? = some c ∧ ∀ k, k < i → s[k]? ≠ some c := by
  induction s generalizing i with
  | nil => simp [firstIdxOf] at h
  | cons x xs ih =>
    by_cases hx : x = c
    · simp [firstIdxOf, hx] at h
      subst h
      exact ⟨by simp [hx], fun k hk => absurd hk (by omega)⟩
    · simp only [firstIdxOf, hx, if_false, Option.map_eq_some'] at h
      obtain ⟨i', hi', rfl⟩ := h
      obtain ⟨h1, h2⟩ := ih hi'
      refine ⟨by simpa using h1, ?_⟩
      intro k hk
      cases k with
      | zero => simpa using hx
      | succ k' => simpa using h2 k' (by omega)

/-- When `lastIdxOf` finds nothing, the character does not occur. -/
theorem lastIdxOf_none {c : Char} {s : List Char} (h : lastIdxOf c s = none) :
    ∀ k : Nat, s[k]? ≠ some c := by
  induction s with
  | nil => intro k; simp
  | cons x xs ih =>
    intro k
    cases hx : lastIdxOf c xs with
    | some i => simp [lastIdxOf, hx] at h
    | none =>
      have hxc : ¬ x = c := by
        by_contra hxc
        simp [lastIdxOf, hx, hxc] at h
      cases k with
      | zero => simpa using hxc
      | succ k' => simpa using ih hx k'

/-- `lastIdxOf` finds an occurrence and nothing later is one. -/
theorem lastIdxOf_spec {c : Char} {s : List Char} {j : Nat}
    (h : lastIdxOf c s = some j) :
    s[j]? = some c ∧ ∀ k, j < k → s[k]? ≠ some c := by
  induction s generalizing j with
  | nil => simp [lastIdxOf] at h
  | cons x xs ih =>
    cases hx : lastIdxOf c xs with
    | some i =>
      simp only [lastIdxOf, hx] at h
      obtain rfl : i + 1 = j := by simpa using h
      obtain ⟨h1, h2⟩ := ih hx
      refine ⟨by simpa using h1, ?_⟩
      intro k hk
      cases k with
      | zero => omega
      | succ k' => simpa using h2 k' (by omega)
    | none =>
      by_cases hxc : x = c
      · simp only [lastIdxOf, hx, hxc, if_pos] at h
        obtain rfl : 0 = j := by simpa using h
        refine ⟨by simp [hxc], ?_⟩
        intro k hk
        cases k with
        | zero => omega
        | succ k' => simpa using lastIdxOf_none hx k'
      · simp [lastIdxOf, hx, hxc] at h

/-- Unfolding of the extractor on a successfully decoded array span; shared by
the extractor theorems. -/
theorem parse_llm_output_arr {text : String} {sub : List Char} {xs : List Json}
    (hspan : extractSpan text.data = some sub) (hdec : jsonLoads sub = some (.arr xs)) :
    parse_llm_output text = xs := by
  simp only [parse_llm_output, hspan, hdec]

/-- Witness for C2 at concrete inputs: direct acceptance, mapped acceptance,
and rejection. -/
theorem validate_finding_line_resolution_witness :
    validate_finding_line 2 [] [2] = some 2
    ∧ validate_finding_line 7 [(7, 3)] [3] = some 3
    ∧ validate_finding_line 9 [(7, 3)] [3] = none :=
  ⟨(validate_finding_line_resolution 2 [] [2]).1 (by decide),
    (validate_finding_line_resolution 7 [(7, 3)] [3]).2.1 (by decide) 3 (by decide)
      (by decide),
    (validate_finding_line_resolution 9 [(7, 3)] [3]).2.2.2.1 (by decide) (by decide)⟩

/-- C5: the model-output extractor is total — the embedding of "never raises" —
and behaves as specified: it takes the greedy span from the first `[` to the
last `]` (characterised positionally below) and attempts to decode it; when no
such span exists or decoding fails it returns the empty sequence, and when the
span decodes as a JSON array it returns that array's elements. -/
theorem parse_llm_output_greedy_span_or_empty (text : String) :
    (extractSpan text.data = none → parse_llm_output text = [])
    ∧ (∀ sub, extractSpan text.data = some sub →
        (∃ i j : Nat,
          text.data[i]? = some '['
          ∧ (∀ k : Nat, k < i → text.data[k]? ≠ some '[')
          ∧ text.data[j]? = some ']'
          ∧ (∀ k : Nat, j < k → text.data[k]? ≠ some ']')
          ∧ i < j ∧ sub = (text.data.drop i).take (j - i + 1))
        ∧ (jsonLoads sub = none → parse_llm_output text = [])
        ∧ (∀ xs, jsonLoads sub = some (.arr xs) → parse_llm_output text = xs)) := by
  constructor
  · intro h
    simp [parse_llm_output, h]
  · intro sub hs
    refine ⟨?_, ?_, fun xs hx => parse_llm_output_arr hs hx⟩
    · unfold extractSpan at hs
      cases hf : firstIdxOf '[' text.data with
      | none => rw [hf] at hs; simp at hs
      | some i =>
        cases hl : lastIdxOf ']' text.data with
        | none => rw [hf, hl] at hs; simp at hs
        | some j =>
          rw [hf, hl] at hs
          by_cases hij : i < j
          · simp only [hij, if_pos, Option.some.injEq] at hs
            obtain ⟨h1, h2⟩ := firstIdxOf_spec hf
            obtain ⟨h3, h4⟩ := lastIdxOf_spec hl
            exact ⟨i, j, h1, h2, h3, h4, hij, hs.symm⟩
          · simp [hij] at hs
    · intro h
      simp [parse_llm_output, hs, h]

/-- Witness for C5: the span of `"prose [1, 2] more"` decodes as an array and
the extractor returns its elements. -/
theorem parse_llm_output_greedy_span_or_empty_witness :
    parse_llm_output "prose [1, 2] more" = [Json.num 1, Json.num 2] :=
  ((parse_llm_output_greedy_span_or_empty "prose [1, 2] more").2
    ("[1, 2]".data) rfl).2.2 [Json.num 1, Json.num 2] rfl

/-- C8 (counterexample): the extractor applies no field validation — on the
model output `"[{}]"` it returns a one-element sequence whose element supplies
none of the fields `line`, `comment`, `severity`, `file`. -/
theorem extractor_element_missing_fields :
    parse_llm_output (String.mk ['[', '{', '}', ']']) = [Json.obj []]
    ∧ hasField (Json.obj []) keyLine = false
    ∧ hasField (Json.obj []) keyComment = false
    ∧ hasField (Json.obj []) keySeverity = false
    ∧ hasField (Json.obj []) ("file".data) = false :=
  ⟨rfl, rfl, rfl, rfl, rfl⟩

/-- C8 (amended): the extractor returns the decoded JSON array exactly as
decoded, performing no validation of its elements — elements may or may not
supply `line`, `comment`, `severity`, `file` or `line_code`. -/
theorem extractor_returns_decoded_array (text : String) (sub : List Char)
    (xs : List Json) (hspan : extractSpan text.data = some sub)
    (hdec : jsonLoads sub = some (.arr xs)) :
    parse_llm_output text = xs :=
  parse_llm_output_arr hspan hdec

/-- Witness for C8's amended theorem at a concrete input. -/
theorem extractor_returns_decoded_array_witness :
    parse_llm_output "x[true]" = [Json.bool true] :=
  extractor_returns_decoded_array "x[true]" ("[true]".data) [Json.bool true] rfl rfl

/-- Every snapshot the file loop emits before its last one is non-terminal
(`done = false`): the per-file snapshots; only the last snapshot of a run can
be terminal. -/
theorem runFrom_dropLast_not_done (llm : String → Except RunErr String)
    (stopped : Nat → Bool) (pc : Bool) (post : Finding → Except RunErr Unit)
    (bp : String → String) :
    ∀ (rem : List Change) (idx : Nat) (acc : List Finding) (summ : List SummaryEntry),
      ∀ s ∈ ((runFrom llm stopped pc post bp rem idx acc summ).1).dropLast,
        s.done = false := by
  intro rem
  induction rem with
  | nil =>
    intro idx acc summ s hmem
    simp [runFrom] at hmem
  | cons c rest ih =>
    intro idx acc summ s hmem
    by_cases hstop : stopped idx = true
    · simp [runFrom, hstop] at hmem
    · have hstop' : stopped idx = false := by
        cases h : stopped idx
        · rfl
        · exact absurd h hstop
      simp only [runFrom, hstop', Bool.false_eq_true, if_false] at hmem
      by_cases hv : (parse_diff_for_new_lines c.diff).valid_new_lines = []
      · rw [if_pos hv] at hmem
        exact ih (idx + 1) acc summ s hmem
      · rw [if_neg hv] at hmem
        split at hmem
        · simp at hmem
        · split at hmem
          · simp at hmem
          · rename_i acc' summ' hpr
            rcases htail : (runFrom llm stopped pc post bp rest (idx + 1) acc' summ').1
              with _ | ⟨t, ts⟩
            · rw [htail] at hmem
              simp at hmem
            · rw [htail] at hmem
              simp only [List.dropLast_cons₂, List.mem_cons] at hmem
              rcases hmem with rfl | hmem
              · rfl
              · have := ih (idx + 1) acc' summ' s
                rw [htail] at this
                exact this hmem

/-- C3: when the stop flag is observed set at a file boundary with files
remaining, the file loop emits exactly one snapshot — terminal, with
`cancelled = true` and `done = true`, whose findings are exactly the
accumulated findings and whose `files_reviewed` equals the number of files
already iterated — and raises nothing; the result is independent of the
model client, the posting collaborator, the prompt builder and the remaining
files, so no further file is parsed or sent to the model; and since every
snapshot of any run except the last is non-terminal, the cancelled snapshot,
being last, is the run's only terminal one. -/
theorem cancellation_at_file_boundary (llm : String → Except RunErr String)
    (stopped : Nat → Bool) (pc : Bool) (post : Finding → Except RunErr Unit)
    (bp : String → String) (ch : Change) (rest : List Change) (idx : Nat)
    (acc : List Finding) (summ : List SummaryEntry)
    (h : stopped idx = true) :
    runFrom llm stopped pc post bp (ch :: rest) idx acc summ
      = ([⟨acc, summ, acc.length, idx, true, true⟩], none)
    ∧ (∀ (llm' : String → Except RunErr String) (pc' : Bool)
        (post' : Finding → Except RunErr Unit) (bp' : String → String)
        (ch' : Change) (rest' : List Change),
        runFrom llm' stopped pc' post' bp' (ch' :: rest') idx acc summ
          = ([⟨acc, summ, acc.length, idx, true, true⟩], none))
    ∧ (∀ (rem : List Change) (idx' : Nat) (acc' : List Finding)
        (summ' : List SummaryEntry),
        ∀ s ∈ ((runFrom llm stopped pc post bp rem idx' acc' summ').1).dropLast,
          s.done = false) := by
  refine ⟨?_, ?_, runFrom_dropLast_not_done llm stopped pc post bp⟩
  · simp [runFrom, h]
  · intro llm' pc' post' bp' ch' rest'
    simp [runFrom, h]

/-- Witness for C3 at a concrete state: a set flag at index 0 yields exactly the
cancelled terminal snapshot carrying the one accumulated finding. -/
theorem cancellation_at_file_boundary_witness :
    runFrom (fun _ => Except.ok "") (fun _ => true) false (fun _ => Except.ok ()) id
      [⟨"", "b.py", "@@ -1 +1 @@\n+y"⟩] 3
      [⟨"a.py", 1, Json.str "c".data, Json.str "low".data, Json.str []⟩]
      [⟨"a.py", 1, Json.str "c".data, Json.str []⟩]
      = ([⟨[⟨"a.py", 1, Json.str "c".data, Json.str "low".data, Json.str []⟩],
            [⟨"a.py", 1, Json.str "c".data, Json.str []⟩], 1, 3, true, true⟩], none) :=
  (cancellation_at_file_boundary (fun _ => Except.ok "") (fun _ => true) false
    (fun _ => Except.ok ()) id ⟨"", "b.py", "@@ -1 +1 @@\n+y"⟩ [] 3
    [⟨"a.py", 1, Json.str "c".data, Json.str "low".data, Json.str []⟩]
    [⟨"a.py", 1, Json.str "c".data, Json.str []⟩] rfl).1

/-- After the reset at run start, the observed flag does not depend on the
value the flag had before the run. -/
theorem observedFlag_indep (f1 f2 : Bool) (s : Nat → Bool) :
    observedFlag f1 s = observedFlag f2 s := by
  funext k
  induction k with
  | zero => simp [observedFlag, flagSeq]
  | succ k ih =>
    simp only [observedFlag, flagSeq] at ih ⊢
    rw [ih]

/-- With no `set_stop_flag` call during the run, the observed flag stays
cleared, whatever its value before the run. -/
theorem observedFlag_false (f : Bool) (s : Nat → Bool) (hs : ∀ j, s j = false) :
    ∀ k, observedFlag f s k = false := by
  intro k
  induction k with
  | zero => simp [observedFlag, flagSeq, hs]
  | succ k ih =>
    simp only [observedFlag, flagSeq] at ih ⊢
    simp [ih, hs]

/-- When the stop flag is never observed set, no emitted snapshot is cancelled. -/
theorem runFrom_no_cancel (llm : String → Except RunErr String) (stopped : Nat → Bool)
    (pc : Bool) (post : Finding → Except RunErr Unit) (bp : String → String)
    (hs : ∀ k, stopped k = false) :
    ∀ (rem : List Change) (idx : Nat) (acc : List Finding) (summ : List SummaryEntry),
      ∀ s ∈ (runFrom llm stopped pc post bp rem idx acc summ).1, s.cancelled = false := by
  intro rem
  induction rem with
  | nil =>
    intro idx acc summ s hmem
    simp only [runFrom, List.mem_singleton] at hmem
    subst hmem
    rfl
  | cons c rest ih =>
    intro idx acc summ s hmem
    simp only [runFrom, hs idx, Bool.false_eq_true, if_false] at hmem
    by_cases hv : (parse_diff_for_new_lines c.diff).valid_new_lines = []
    · rw [if_pos hv] at hmem
      exact ih (idx + 1) acc summ s hmem
    · rw [if_neg hv] at hmem
      split at hmem
      · simp at hmem
      · split at hmem
        · simp at hmem
        · rename_i acc' summ' hpr
          simp only [List.mem_cons] at hmem
          rcases hmem with rfl | hmem
          · rfl
          · exact ih (idx + 1) acc' summ' s hmem

/-- C10: the run resets the process-wide stop flag before the first boundary
check, so the run's entire observable result is independent of the flag value
at entry — a cancellation requested before the run begins is discarded — and
when no `set_stop_flag` call is made after the run has started, no snapshot of
the run is cancelled, whatever the flag held at entry. -/
theorem stale_cancellation_discarded (f1 f2 : Bool) (setDuring : Nat → Bool)
    (llm : String → Except RunErr String) (pc : Bool)
    (post : Finding → Except RunErr Unit) (bp : String → String)
    (diffs : List Change) :
    review_merge_request_stream f1 setDuring llm pc post bp diffs
      = review_merge_request_stream f2 setDuring llm pc post bp diffs
    ∧ ((∀ j, setDuring j = false) →
        ∀ s ∈ (review_merge_request_stream f1 setDuring llm pc post bp diffs).1,
          s.cancelled = false) := by
  constructor
  · unfold review_merge_request_stream
    rw [observedFlag_indep f1 f2]
  · intro hset
    exact runFrom_no_cancel llm (observedFlag f1 setDuring) pc post bp
      (observedFlag_false f1 setDuring hset) diffs 0 [] []

/-- Witness for C10: with the flag set at entry and no set call during the run,
the run equals the run with a cleared entry flag, and its only snapshot (the
terminal one of an empty file list) is not cancelled. -/
theorem stale_cancellation_discarded_witness :
    review_merge_request_stream true (fun _ => false) (fun _ => Except.ok "") false
        (fun _ => Except.ok ()) id []
      = review_merge_request_stream false (fun _ => false) (fun _ => Except.ok "") false
        (fun _ => Except.ok ()) id []
    ∧ (⟨[], [], 0, 0, false, true⟩ : Snapshot).cancelled = false :=
  ⟨(stale_cancellation_discarded true false (fun _ => false) (fun _ => Except.ok "")
      false (fun _ => Except.ok ()) id []).1,
    (stale_cancellation_discarded true false (fun _ => false) (fun _ => Except.ok "")
      false (fun _ => Except.ok ()) id []).2 (fun _ => rfl)
      ⟨[], [], 0, 0, false, true⟩ (by rw [show (review_merge_request_stream true
        (fun _ => false) (fun _ => Except.ok "") false (fun _ => Except.ok ()) id
        []).1 = [⟨[], [], 0, 0, false, true⟩] from rfl]; exact List.mem_singleton.mpr rfl)⟩

/-- The `files_reviewed` fields of the snapshots emitted by the file loop are
non-decreasing, and all of them are at least the loop's starting index. -/
theorem runFrom_files_reviewed_mono (llm : String → Except RunErr String)
    (stopped : Nat → Bool) (pc : Bool) (post : Finding → Except RunErr Unit)
    (bp : String → String) :
    ∀ (rem : List Change) (idx : Nat) (acc : List Finding) (summ : List SummaryEntry),
      List.Chain' (· ≤ ·)
        (((runFrom llm stopped pc post bp rem idx acc summ).1).map Snapshot.files_reviewed)
      ∧ ∀ s ∈ (runFrom llm stopped pc post bp rem idx acc summ).1,
          idx ≤ s.files_reviewed := by
  intro rem
  induction rem with
  | nil =>
    intro idx acc summ
    constructor
    · simp [runFrom]
    · intro s hmem
      simp only [runFrom, List.mem_singleton] at hmem
      subst hmem
      exact le_refl idx
  | cons c rest ih =>
    intro idx acc summ
    by_cases hstop : stopped idx = true
    · constructor
      · simp [runFrom, hstop]
      · intro s hmem
        simp only [runFrom, hstop, if_pos, List.mem_singleton] at hmem
        subst hmem
        exact le_refl idx
    · have hstop' : stopped idx = false := by
        cases h : stopped idx
        · rfl
        · exact absurd h hstop
      by_cases hv : (parse_diff_for_new_lines c.diff).valid_new_lines = []
      · have h1 := ih (idx + 1) acc summ
        constructor
        · have : (runFrom llm stopped pc post bp (c :: rest) idx acc summ)
              = runFrom llm stopped pc post bp rest (idx + 1) acc summ := by
            simp [runFrom, hstop', hv]
          rw [this]
          exact h1.1
        · intro s hmem
          simp only [runFrom, hstop', Bool.false_eq_true, if_false, if_pos hv] at hmem
          exact le_trans (Nat.le_succ idx) (h1.2 s hmem)
      · cases hllm : llm (bp (String.intercalate "\n"
            ((parse_diff_for_new_lines c.diff).formatted_diff.map String.mk))) with
        | error e =>
          have heq : runFrom llm stopped pc post bp (c :: rest) idx acc summ
              = ([], some e) := by
            simp [runFrom, hstop', hv, hllm]
          rw [heq]
          exact ⟨by simp, by simp⟩
        | ok resp =>
          cases hpr : processItems pc post c.new_path
              (parse_diff_for_new_lines c.diff).line_mapping
              (parse_diff_for_new_lines c.diff).valid_new_lines
              (parse_llm_output resp) acc summ with
          | error e =>
            have heq : runFrom llm stopped pc post bp (c :: rest) idx acc summ
                = ([], some e) := by
              simp [runFrom, hstop', hv, hllm, hpr]
            rw [heq]
            exact ⟨by simp, by simp⟩
          | ok st =>
            obtain ⟨acc', summ'⟩ := st
            have h1 := ih (idx + 1) acc' summ'
            have heq : runFrom llm stopped pc post bp (c :: rest) idx acc summ
                = (⟨acc', summ', acc'.length, idx + 1, false, false⟩ ::
                    (runFrom llm stopped pc post bp rest (idx + 1) acc' summ').1,
                  (runFrom llm stopped pc post bp rest (idx + 1) acc' summ').2) := by
              simp [runFrom, hstop', hv, hllm, hpr]
            rw [heq]
            constructor
            · simp only [List.map_cons]
              refine List.chain'_cons'.mpr ⟨?_, h1.1⟩
              intro b hb
              rw [List.head?_map, Option.mem_def, Option.map_eq_some'] at hb
              obtain ⟨s2, hs2, rfl⟩ := hb
              exact h1.2 s2 (List.mem_of_mem_head? (Option.mem_def.mpr hs2))
            · intro s hmem
              simp only [List.mem_cons] at hmem
              rcases hmem with rfl | hmem
              · exact Nat.le_succ idx
              · exact le_trans (Nat.le_succ idx) (h1.2 s hmem)

/-- C7 (counterexample): a run over a single reviewed file emits its per-file
snapshot and then the terminal snapshot with the same `files_reviewed` value,
so the sequence `[1, 1]` is not strictly increasing. -/
theorem files_reviewed_not_strictly_increasing :
    (((review_merge_request_stream false (fun _ => false) (fun _ => Except.ok "") false
        (fun _ => Except.ok ()) id [⟨"", "a.py", "@@ -1 +1 @@\n+x"⟩]).1).map
      Snapshot.files_reviewed) = [1, 1]
    ∧ ¬ List.Chain' (fun a b => a < b)
        (((review_merge_request_stream false (fun _ => false) (fun _ => Except.ok "") false
            (fun _ => Except.ok ()) id [⟨"", "a.py", "@@ -1 +1 @@\n+x"⟩]).1).map
          Snapshot.files_reviewed) := by
  have heq : (((review_merge_request_stream false (fun _ => false) (fun _ => Except.ok "")
      false (fun _ => Except.ok ()) id [⟨"", "a.py", "@@ -1 +1 @@\n+x"⟩]).1).map
        Snapshot.files_reviewed) = [1, 1] := by rfl
  refine ⟨heq, ?_⟩
  rw [heq]
  intro h
  exact absurd (List.chain'_cons.mp h).1 (lt_irrefl 1)

/-- C7 (amended): across every run, the `files_reviewed` values of the emitted
snapshots are non-decreasing from the first snapshot through the terminal one
(strict increase fails only between the last per-file snapshot and the terminal
snapshot, and across a cancelled terminal snapshot). -/
theorem files_reviewed_nondecreasing (flagAtStart : Bool) (setDuring : Nat → Bool)
    (llm : String → Except RunErr String) (pc : Bool)
    (post : Finding → Except RunErr Unit) (bp : String → String)
    (diffs : List Change) :
    List.Chain' (· ≤ ·)
      (((review_merge_request_stream flagAtStart setDuring llm pc post bp diffs).1).map
        Snapshot.files_reviewed) :=
  (runFrom_files_reviewed_mono llm (observedFlag flagAtStart setDuring) pc post bp
    diffs 0 [] []).1

/-- C4: an exception from the model-client invocation ends the entire run and
propagates to the caller — the loop emits no further snapshot, performs no
retry (the result is independent of the remaining files), and there is no
per-file recovery; while a file successfully reviewed just before still has
its snapshot in the stream that the consumer observed. -/
theorem model_error_propagates (llm : String → Except RunErr String)
    (stopped : Nat → Bool) (pc : Bool) (post : Finding → Except RunErr Unit)
    (bp : String → String) (ch0 ch : Change) (rest : List Change) (idx : Nat)
    (acc : List Finding) (summ : List SummaryEntry) (resp0 : String)
    (acc1 : List Finding) (summ1 : List SummaryEntry) (e : RunErr)
    (h0 : stopped idx = false)
    (h0v : (parse_diff_for_new_lines ch0.diff).valid_new_lines ≠ [])
    (h0llm : llm (bp (String.intercalate "\n"
        ((parse_diff_for_new_lines ch0.diff).formatted_diff.map String.mk)))
      = Except.ok resp0)
    (h0proc : processItems pc post ch0.new_path
        (parse_diff_for_new_lines ch0.diff).line_mapping
        (parse_diff_for_new_lines ch0.diff).valid_new_lines
        (parse_llm_output resp0) acc summ = Except.ok (acc1, summ1))
    (h1 : stopped (idx + 1) = false)
    (h1v : (parse_diff_for_new_lines ch.diff).valid_new_lines ≠ [])
    (h1llm : llm (bp (String.intercalate "\n"
        ((parse_diff_for_new_lines ch.diff).formatted_diff.map String.mk)))
      = Except.error e) :
    runFrom llm stopped pc post bp (ch :: rest) (idx + 1) acc1 summ1 = ([], some e)
    ∧ (∀ rest', runFrom llm stopped pc post bp (ch :: rest') (idx + 1) acc1 summ1
        = ([], some e))
    ∧ runFrom llm stopped pc post bp (ch0 :: ch :: rest) idx acc summ
        = ([⟨acc1, summ1, acc1.length, idx + 1, false, false⟩], some e) := by
  have key : ∀ rest', runFrom llm stopped pc post bp (ch :: rest') (idx + 1) acc1 summ1
      = ([], some e) := by
    intro rest'
    simp [runFrom, h1, h1v, h1llm]
  refine ⟨key rest, key, ?_⟩
  simp [runFrom, h0, h0v, h0llm, h0proc, h1, h1v, h1llm]

/-- Witness for C4, Scenario E shaped: the model client succeeds on the first
file and raises on the second; the run surfaces the error with exactly the
first file's snapshot emitted. -/
theorem model_error_propagates_witness :
    runFrom (fun s => if s = "@@ -1 +1 @@\n  [1] a" then Except.ok "no json"
        else Except.error RunErr.modelFailure)
      (fun _ => false) false (fun _ => Except.ok ()) id
      [⟨"", "a.py", "@@ -1 +1 @@\n+a"⟩, ⟨"", "b.py", "@@ -1 +1 @@\n+b"⟩] 0 [] []
      = ([⟨[], [], 0, 1, false, false⟩], some RunErr.modelFailure) :=
  (model_error_propagates
    (fun s => if s = "@@ -1 +1 @@\n  [1] a" then Except.ok "no json"
      else Except.error RunErr.modelFailure)
    (fun _ => false) false (fun _ => Except.ok ()) id
    ⟨"", "a.py", "@@ -1 +1 @@\n+a"⟩ ⟨"", "b.py", "@@ -1 +1 @@\n+b"⟩ [] 0 [] []
    "no json" [] [] RunErr.modelFailure rfl (by decide) rfl rfl rfl (by decide)
    rfl).2.2

/-- C6 (counterexample): one extracted record can abort the file and the whole
run — a record whose `line` passes validation but which lacks the `comment`
field raises `KeyError` (reviewer.py line 315), terminating the run with no
snapshot for the file. -/
theorem record_missing_comment_aborts :
    runFrom (fun _ => Except.ok (String.mk
        ['[', '{', '"', 'l', 'i', 'n', 'e', '"', ':', '1', '}', ']']))
      (fun _ => false) false (fun _ => Except.ok ()) id
      [⟨"", "a.py", "@@ -1 +1 @@\n+x"⟩] 0 [] []
      = ([], some RunErr.keyError) := by
  rfl

/-- C6 (amended): per-record failure handling of the orchestrator — a record
with a missing or null `line` is dropped and processing continues with the next
record; a record whose `line` fails validation is dropped and processing
continues; the posting collaborator never raises (its create failure is caught
and logged inside `post_inline_comment`); an accepted record's Finding is
appended to the accumulator and the remaining records are processed, for any
posting outcome; but a record that passes line validation while lacking the
`comment` field raises `KeyError` and aborts the run. -/
theorem record_failure_handling (pc : Bool) (post : Finding → Except RunErr Unit)
    (fp : String) (lm : List (Int × Int)) (valid : List Int)
    (kvs : List (List Char × Json)) (rest : List Json) (acc : List Finding)
    (summ : List SummaryEntry) :
    ((objGet kvs keyLine = none ∨ objGet kvs keyLine = some .null) →
      processItems pc post fp lm valid (.obj kvs :: rest) acc summ
        = processItems pc post fp lm valid rest acc summ)
    ∧ (∀ lv, objGet kvs keyLine = some lv → lineResolution lv lm valid = .ok none →
        processItems pc post fp lm valid (.obj kvs :: rest) acc summ
          = processItems pc post fp lm valid rest acc summ)
    ∧ (∀ (hasDiffRefs : Bool) (changes : List Change) (file_path : String)
        (createRaises : Bool),
        post_inline_comment hasDiffRefs changes file_path createRaises = Except.ok ())
    ∧ (∀ lv n cm sv, objGet kvs keyLine = some lv →
        lineResolution lv lm valid = .ok (some n) →
        objGet kvs keyComment = some cm → objGet kvs keySeverity = some sv →
        pc = false →
        processItems pc post fp lm valid (.obj kvs :: rest) acc summ
          = processItems pc post fp lm valid rest
              (acc ++ [⟨fp, n, cm, sv, (objGet kvs keyLineCode).getD (.str [])⟩])
              (summ ++ [⟨fp, n, cm, (objGet kvs keyLineCode).getD (.str [])⟩]))
    ∧ (∀ lv n cm s, objGet kvs keyLine = some lv →
        lineResolution lv lm valid = .ok (some n) →
        objGet kvs keyComment = some cm → objGet kvs keySeverity = some (.str s) →
        pc = true →
        post ⟨fp, n, cm, .str s, (objGet kvs keyLineCode).getD (.str [])⟩ = Except.ok () →
        processItems pc post fp lm valid (.obj kvs :: rest) acc summ
          = processItems pc post fp lm valid rest
              (acc ++ [⟨fp, n, cm, .str s, (objGet kvs keyLineCode).getD (.str [])⟩])
              (summ ++ [⟨fp, n, cm, (objGet kvs keyLineCode).getD (.str [])⟩]))
    ∧ (∀ lv n, objGet kvs keyLine = some lv →
        lineResolution lv lm valid = .ok (some n) →
        objGet kvs keyComment = none →
        processItems pc post fp lm valid (.obj kvs :: rest) acc summ
          = .error .keyError) := by
  refine ⟨?_, ?_, ?_, ?_, ?_, ?_⟩
  · rintro (h | h) <;> simp [processItems, h]
  · intro lv h hres
    cases lv with
    | null => simp [processItems, h]
    | num n => simp [processItems, h, hres]
    | bool b => simp [processItems, h, hres]
    | str s => simp [processItems, h, hres]
    | arr xs => exact absurd hres (by simp [lineResolution])
    | obj ms => exact absurd hres (by simp [lineResolution])
  · intro dr chs p cr
    cases hft : findTargetChange chs p with
    | none => cases dr <;> simp [post_inline_comment, hft]
    | some tc => cases dr <;> cases cr <;> simp [post_inline_comment, hft]
  · intro lv n cm sv h hres hcm hsv hpc
    subst hpc
    cases lv with
    | null => exact absurd hres (by simp [lineResolution])
    | num k => simp [processItems, h, hres, hcm, hsv]
    | bool b => simp [processItems, h, hres, hcm, hsv]
    | str s => exact absurd hres (by simp [lineResolution, validate_finding_line])
    | arr xs => exact absurd hres (by simp [lineResolution])
    | obj ms => exact absurd hres (by simp [lineResolution])
  · intro lv n cm s h hres hcm hsv hpc hpost
    subst hpc
    cases lv with
    | null => exact absurd hres (by simp [lineResolution])
    | num k => simp [processItems, h, hres, hcm, hsv, hpost]
    | bool b => simp [processItems, h, hres, hcm, hsv, hpost]
    | str s2 => exact absurd hres (by simp [lineResolution, validate_finding_line])
    | arr xs => exact absurd hres (by simp [lineResolution])
    | obj ms => exact absurd hres (by simp [lineResolution])
  · intro lv n h hres hcm
    cases lv with
    | null => exact absurd hres (by simp [lineResolution])
    | num k => simp [processItems, h, hres, hcm]
    | bool b => simp [processItems, h, hres, hcm]
    | str s => exact absurd hres (by simp [lineResolution, validate_finding_line])
    | arr xs => exact absurd hres (by simp [lineResolution])
    | obj ms => exact absurd hres (by simp [lineResolution])

/-- Witness for C6's amended theorem: a rejected-line record is dropped and
processing continues with the remaining records. -/
theorem record_failure_handling_witness :
    processItems false (fun _ => Except.ok ()) "a.py" [] [2]
        [Json.obj [(keyLine, Json.num 5)]] [] []
      = processItems false (fun _ => Except.ok ()) "a.py" [] [2] [] [] [] :=
  (record_failure_handling false (fun _ => Except.ok ()) "a.py" [] [2]
    [(keyLine, Json.num 5)] [] [] []).2.1 (Json.num 5) rfl rfl

end GitlabReviewer
